import Mathlib

/-!
Verification of the solvable-orders cache (`crates/orderbook/src/solvable_orders.rs`).

The Rust source is shallowly embedded: 256-bit unsigned integers (`U256`) become
`Nat` together with explicit checked operations that fail at `2 ^ 256`; hash maps
keyed by balance queries or tokens become functions into `Option Nat`; fallible
Rust functions returning `anyhow::Result` become `Except String`.  The allocator
`solvable_orders` iterates the groups of a `HashMap`, whose iteration order is
unspecified; the embedding fixes the group order to the order of the deduplicated
key list.  All properties proved below are insensitive to that choice (they are
stated per key, as memberships, or as multiset counts).
-/

deriving instance DecidableEq for Except

namespace SolvableOrdersCache

/-- The modulus of Rust's `U256`; checked arithmetic fails at this bound. -/
def U256_LIMIT : Nat := 2 ^ 256

/-- `U256::checked_add`. -/
def checked_add (a b : Nat) : Option Nat :=
  if a + b < U256_LIMIT then some (a + b) else none

/-- `U256::checked_sub`. -/
def checked_sub (a b : Nat) : Option Nat :=
  if b ≤ a then some (a - b) else none

/-- `U256::checked_mul`. -/
def checked_mul (a b : Nat) : Option Nat :=
  if a * b < U256_LIMIT then some (a * b) else none

/-- `U256::checked_div` (fails only on division by zero). -/
def checked_div (a b : Nat) : Option Nat :=
  if b = 0 then none else some (a / b)

/-- `model::order::OrderKind`. -/
inductive OrderKind where
  | sell
  | buy
deriving DecidableEq

/-- `model::order::Order`, flattened over its `creation` and `metadata` parts.
Addresses (`H160`), token identities, order uids, the sell-token source tag and
timestamps are abstracted to `Nat`; amounts are `Nat` standing for `U256`. -/
structure Order where
  uid : Nat
  owner : Nat
  sell_token : Nat
  buy_token : Nat
  sell_amount : Nat
  buy_amount : Nat
  fee_amount : Nat
  kind : OrderKind
  partially_fillable : Bool
  executed_sell_amount : Nat
  executed_buy_amount : Nat
  sell_token_balance : Nat
  creation_date : Nat
  valid_to : Nat
  available_balance : Option Nat
deriving DecidableEq

/-- `account_balances::Query`: the key identifying one spendable balance pool. -/
structure Query where
  owner : Nat
  token : Nat
  source : Nat
deriving DecidableEq

/-- Modelled from the spec: `Query::from_order` lives in the crate
`account_balances`, which is not among the provided sources.  Per the spec's data
model, a `BalanceQuery` is the tuple `(owner, sell_token, sell_token_source)` of
the order. -/
def Query.from_order (o : Order) : Query :=
  ⟨o.owner, o.sell_token, o.sell_token_balance⟩

/-- The `Balances` map (`HashMap<Query, U256>`), embedded as a lookup function. -/
abbrev Balances := Query → Option Nat

def empty_balances : Balances := fun _ => none

def insert_balance (m : Balances) (q : Query) (v : Nat) : Balances :=
  fun q2 => if q2 = q then some v else m q2

/-- The collected native-price map (token → normalized price). -/
abbrev Prices := Nat → Option Nat

def empty_prices : Prices := fun _ => none

def insert_price (m : Prices) (t : Nat) (p : Nat) : Prices :=
  fun t2 => if t2 = t then some p else m t2

/-- `RemainingAmounts`: the output of `Order::remaining_amounts`, restricted to
the two fields read by `max_transfer_out_amount`. -/
structure RemainingAmounts where
  sell_amount : Nat
  fee_amount : Nat
deriving DecidableEq

/-- Modelled from the spec: `Order::remaining_amounts` lives in the crate
`model`, which is not among the provided sources.  Per spec §4.2 a fill-or-kill
order keeps its full `sell_amount` and `fee_amount`; a partially fillable order
scales each amount by the remaining fraction `(total - executed) / total`, where
the executed/limit pair is chosen by the order's kind, computed in 256-bit
arithmetic with overflow checks.  The repository's unit tests
(`computes_max_transfer_out_amount_for_order`, `max_transfer_out_amount_overflow`,
`filters_zero_amount_orders`) pin the checked computation to
`amount.checked_mul(remaining)?.checked_div(total)?` after
`remaining = total.checked_sub(executed)?`: the error cases are an overflowing
256-bit product `amount * remaining`, `executed > total`, and `total = 0`. -/
def Order.remaining_amounts (o : Order) : Except String RemainingAmounts :=
  if o.partially_fillable = false then
    Except.ok ⟨o.sell_amount, o.fee_amount⟩
  else
    let executed := match o.kind with
      | OrderKind.buy => o.executed_buy_amount
      | OrderKind.sell => o.executed_sell_amount
    let total := match o.kind with
      | OrderKind.buy => o.buy_amount
      | OrderKind.sell => o.sell_amount
    match checked_sub total executed with
    | none => Except.error "underflow computing remaining amounts"
    | some remaining =>
      match checked_mul o.sell_amount remaining, checked_mul o.fee_amount remaining with
      | some s, some f =>
        match checked_div s total, checked_div f total with
        | some s2, some f2 => Except.ok ⟨s2, f2⟩
        | _, _ => Except.error "division by zero computing remaining amounts"
      | _, _ => Except.error "overflow computing remaining amounts"

/-- `max_transfer_out_amount`: the remaining `sell_amount + fee_amount` of the
order, with a checked 256-bit addition. -/
def max_transfer_out_amount (o : Order) : Except String Nat :=
  match o.remaining_amounts with
  | Except.error e => Except.error e
  | Except.ok a =>
    match checked_add a.sell_amount a.fee_amount with
    | some v => Except.ok v
    | none => Except.error "overflow computing maximum transfer out amount"

/-- Stable insertion into a list sorted by `creation_date` descending: the new
order is placed before the first strictly older entry, hence after all entries
of greater or equal date. -/
def insert_by_date (x : Order) : List Order → List Order
  | [] => [x]
  | y :: l =>
    if y.creation_date < x.creation_date then x :: y :: l
    else y :: insert_by_date x l

/-- `orders.sort_by_key(|order| Reverse(order.metadata.creation_date))`:
a stable sort by `creation_date` descending. -/
def sort_by_date_desc (orders : List Order) : List Order :=
  orders.foldl (fun acc o => insert_by_date o acc) []

/-- Boolean test that an order belongs to the balance group of `q`. -/
def has_key (q : Query) (o : Order) : Bool :=
  decide (Query.from_order o = q)

/-- The per-group admission loop of `solvable_orders`: walk the group in order,
skip zero-needed orders and orders whose `max_transfer_out_amount` errors, admit
an order exactly when the checked subtraction from the remaining balance
succeeds. -/
def allocate (remaining : Nat) : List Order → List Order
  | [] => []
  | o :: rest =>
    match max_transfer_out_amount o with
    | Except.error _ => allocate remaining rest
    | Except.ok needed =>
      if needed = 0 then allocate remaining rest
      else
        match checked_sub remaining needed with
        | some r2 => o :: allocate r2 rest
        | none => allocate remaining rest

/-- The group keys of the allocator's `orders_map`, one per distinct query. -/
def group_keys (orders : List Order) : List Query :=
  (orders.map Query.from_order).dedup

/-- One entry of the allocator's result: the admitted orders of the group of
`q`, or nothing when the balance of `q` is unknown. -/
def group_alloc (balances : Balances) (sorted : List Order) (q : Query) : List Order :=
  match balances q with
  | none => []
  | some b => allocate b (sorted.filter (has_key q))

/-- `solvable_orders`: sort all orders by `creation_date` descending (stable),
group them by balance query, and admit each group greedily against its balance.
The source iterates the groups of a `HashMap` in unspecified order; the
embedding iterates the deduplicated key list. -/
def solvable_orders (orders : List Order) (balances : Balances) : List Order :=
  (group_keys (sort_by_date_desc orders)).flatMap
    (group_alloc balances (sort_by_date_desc orders))

/-- The result of `OrderStoring::solvable_orders`. -/
structure DbOrders where
  orders : List Order
  latest_settlement_block : Nat
deriving DecidableEq

/-- The cached `SolvableOrders` value (`update_time` is a monotonic `Instant`
and is not modelled). -/
structure SolvableOrders where
  orders : List Order
  latest_settlement_block : Nat
  block : Nat

/-- `model::auction::Auction`. -/
structure Auction where
  block : Nat
  latest_settlement_block : Nat
  orders : List Order
  prices : Prices

/-- `Inner`: the published cache cell. -/
structure Inner where
  orders : SolvableOrders
  balances : Balances
  auction : Auction

/-- `filter_banned_user_orders`: drop orders whose owner is banned, keeping the
relative order of the survivors. -/
def filter_banned_user_orders (orders : List Order) (banned_users : List Nat) : List Order :=
  orders.filter (fun o => !(banned_users.contains o.owner))

/-- One step of the fold in `new_balances`: an order whose query has an old
balance copies it into the prefetched map, otherwise the query joins the
(deduplicated) missing set. -/
def nb_step (old : Balances) (acc : Balances × List Query) (o : Order) : Balances × List Query :=
  match old (Query.from_order o) with
  | some b => (insert_balance acc.1 (Query.from_order o) b, acc.2)
  | none =>
    (acc.1,
      if Query.from_order o ∈ acc.2 then acc.2 else acc.2.concat (Query.from_order o))

/-- `new_balances`: returns the balances reused from the previous cycle and the
queries that still need to be performed.  The source collects the missing
queries in a `HashSet`; the embedding keeps them as a duplicate-free list. -/
def new_balances (old : Balances) (orders : List Order) : Balances × List Query :=
  orders.foldl (nb_step old) (empty_balances, [])

/-- The loop in `update` that merges balance-oracle results into the map,
skipping failed queries. -/
def apply_fetched (m : Balances) (missing : List Query)
    (fetched : List (Except String Nat)) : Balances :=
  (missing.zip fetched).foldl
    (fun acc qr =>
      match qr.2 with
      | Except.ok b => insert_balance acc qr.1 b
      | Except.error _ => acc)
    m

/-- Boolean test for a successful balance-oracle result (the `Ok`/`Err` match
of the merge loop in `update`). -/
def is_ok (r : Except String Nat) : Bool :=
  match r with
  | Except.ok _ => true
  | Except.error _ => false

/-- The loop in `update` that annotates each admitted order with
`available_balance = balances[query]`. -/
def annotate_balances (orders : List Order) (balances : Balances) : List Order :=
  orders.map (fun o => { o with available_balance := balances (Query.from_order o) })

/-- Boolean test that both tokens of an order are priced. -/
def both_priced (prices : Prices) (o : Order) : Bool :=
  (prices o.sell_token).isSome && (prices o.buy_token).isSome

/-- The filtering half of `get_orders_with_native_prices` (the price stream and
its deadline are abstracted into the already-collected map `prices`): retain
exactly the orders with both tokens priced, and build `used_prices` by
inserting both token prices of every retained order. -/
def get_orders_with_native_prices (orders : List Order) (prices : Prices) :
    List Order × Prices :=
  (orders.filter (both_priced prices),
    orders.foldl
      (fun acc o =>
        match prices o.sell_token, prices o.buy_token with
        | some p0, some p1 => insert_price (insert_price acc o.sell_token p0) o.buy_token p1
        | _, _ => acc)
      empty_prices)

/-- The external collaborators consumed by one `update` cycle: the order store
result, the bad-token filtering (`filter_unsupported_tokens` from the
`orderbook` crate, abstracted as a fallible transformation), the balance
oracle (order-preserving, one result per query), and the native prices
collected before the deadline. -/
structure UpdateEnv where
  db : Except String DbOrders
  filter_unsupported_tokens : List Order → Except String (List Order)
  get_balances : List Query → List (Except String Nat)
  collected_prices : Prices

/-- The block gate of `update`: the previous balances are reused verbatim when
the cached snapshot's block equals the cycle's block, and discarded otherwise. -/
def old_balances_for (prev : Inner) (block : Nat) : Balances :=
  if prev.orders.block = block then prev.balances else empty_balances

/-- `SolvableOrdersCache::update`: the full refresh cycle as a pure function of
its collaborators.  Fallible steps (`?` in the source) are sequenced first; the
cache cell is produced only when every one of them succeeded. -/
def update (env : UpdateEnv) (banned_users : List Nat) (prev : Inner) (block : Nat) :
    Except String Inner :=
  match env.db with
  | Except.error e => Except.error e
  | Except.ok dbo =>
    match env.filter_unsupported_tokens (filter_banned_user_orders dbo.orders banned_users) with
    | Except.error e => Except.error e
    | Except.ok orders =>
      let nbm := new_balances (old_balances_for prev block) orders
      let balances := apply_fetched nbm.1 nbm.2 (env.get_balances nbm.2)
      let solv := annotate_balances (solvable_orders orders balances) balances
      let op := get_orders_with_native_prices solv env.collected_prices
      Except.ok
        { orders :=
            { orders := op.1
              latest_settlement_block := dbo.latest_settlement_block
              block := block }
          balances := balances
          auction :=
            { block := block
              latest_settlement_block := dbo.latest_settlement_block
              orders := op.1
              prices := op.2 } }

/-- The caller's view of a cycle: on error the published cell is left exactly
as it was (`*self.cache.lock().unwrap() = ...` runs only on the success path). -/
def update_step (env : UpdateEnv) (banned_users : List Nat) (prev : Inner) (block : Nat) :
    Inner :=
  match update env banned_users prev block with
  | Except.ok next => next
  | Except.error _ => prev

/-- The balance an admitted order consumes (zero for orders whose
`max_transfer_out_amount` errors; such orders are never admitted). -/
def needed_or_zero (o : Order) : Nat :=
  match max_transfer_out_amount o with
  | Except.ok n => n
  | Except.error _ => 0

/-- Total balance consumed by a list of orders. -/
def needed_sum (l : List Order) : Nat :=
  (l.map needed_or_zero).sum

/-- Boolean test that an order carries a given creation date. -/
def date_is (d : Nat) (o : Order) : Bool :=
  decide (o.creation_date = d)

/-- A zeroed order from which the concrete test orders below differ only in
their named fields; its balance query is `(0, 0, 0)`. -/
def o_base : Order :=
  { uid := 0, owner := 0, sell_token := 0, buy_token := 0, sell_amount := 0,
    buy_amount := 0, fee_amount := 0, kind := OrderKind.sell,
    partially_fillable := false, executed_sell_amount := 0,
    executed_buy_amount := 0, sell_token_balance := 0, creation_date := 0,
    valid_to := 0, available_balance := none }

/-- The balance query shared by all zero-owner, zero-sell-token test orders. -/
def q0 : Query := ⟨0, 0, 0⟩

/-- A second balance query, for sell token 1. -/
def q1 : Query := ⟨0, 1, 0⟩

/-- Scenario S1, newer order: `sell = 3`, `fee = 3`, created at `t = 2`. -/
def c1_order_new : Order :=
  { o_base with uid := 1, sell_amount := 3, fee_amount := 3, creation_date := 2 }

/-- Scenario S1, older order: `sell = 2`, `fee = 2`, created at `t = 0`. -/
def c1_order_old : Order :=
  { o_base with uid := 2, sell_amount := 2, fee_amount := 2, creation_date := 0 }

/-- Scenario S1 balance map: 9 units for the shared query. -/
def c1_balances : Balances := fun q => if q = q0 then some 9 else none

/-- Timestamp-collision pair, first element (larger uid). -/
def c2_first : Order :=
  { o_base with uid := 2, sell_amount := 5, creation_date := 7 }

/-- Timestamp-collision pair, second element (smaller uid). -/
def c2_second : Order :=
  { o_base with uid := 1, sell_amount := 5, creation_date := 7 }

/-- Balance enough for exactly one of the colliding pair. -/
def c2_balances : Balances := fun q => if q = q0 then some 5 else none

/-- Three-order group: newest order, consuming 5 of the 10 available. -/
def c3_newest : Order :=
  { o_base with uid := 3, sell_amount := 5, creation_date := 10 }

/-- Three-order group: middle-aged order needing 6, more than what the newest
order leaves over. -/
def c3_mid : Order :=
  { o_base with uid := 4, sell_amount := 6, creation_date := 5 }

/-- Three-order group: oldest order needing only 3. -/
def c3_oldest : Order :=
  { o_base with uid := 5, sell_amount := 3, creation_date := 1 }

/-- Balance map granting 10 units to the three-order group. -/
def c3_balances : Balances := fun q => if q = q0 then some 10 else none

/-- Two-order group, newer order needing 4. -/
def c3w_a : Order :=
  { o_base with uid := 6, sell_amount := 4, creation_date := 9 }

/-- Two-order group, older order needing 4. -/
def c3w_b : Order :=
  { o_base with uid := 7, sell_amount := 4, creation_date := 3 }

/-- Balance of 5 for the two-order group: enough for exactly one order. -/
def c3w_balances : Balances := fun q => if q = q0 then some 5 else none

/-- Scenario S7: a fill-or-kill order with `sell_amount = 2^256 - 1` and
`fee_amount = 1`, whose checked sum overflows. -/
def s7_order : Order :=
  { o_base with uid := 8, sell_amount := 2 ^ 256 - 1, fee_amount := 1,
                creation_date := 5 }

/-- A well-formed companion order in the same group as the S7 order. -/
def s7_ok_order : Order :=
  { o_base with uid := 9, sell_amount := 7, creation_date := 1 }

/-- Balance map for the S7 scenario. -/
def s7_balances : Balances := fun q => if q = q0 then some 10 else none

/-- The cache cell as initialized by `SolvableOrdersCache::new`. -/
def init_inner : Inner :=
  { orders := { orders := [], latest_settlement_block := 0, block := 0 },
    balances := empty_balances,
    auction :=
      { block := 0, latest_settlement_block := 0, orders := [], prices := empty_prices } }

/-- An environment whose order store returns the S7 order next to a valid one
and whose other collaborators all succeed. -/
def s7_env : UpdateEnv :=
  { db := Except.ok { orders := [s7_order, s7_ok_order], latest_settlement_block := 3 },
    filter_unsupported_tokens := fun l => Except.ok l,
    get_balances := fun qs => qs.map (fun _ => Except.ok 10),
    collected_prices := fun _ => some 1 }

/-- The partially fillable buy order of the repository's
`max_transfer_out_amount_overflow` test: `sell = 1000`, `fee = 337`,
`buy = 2^256 - 1`, nothing executed.  Its exact remaining transfer amount is
`1337`, yet the fill-ratio product `sell * buy` overflows 256 bits. -/
def c5_cex : Order :=
  { o_base with sell_amount := 1000, fee_amount := 337, buy_amount := 2 ^ 256 - 1,
                kind := OrderKind.buy, partially_fillable := true }

/-- A small fill-or-kill order (`sell = 5`, `fee = 2`). -/
def c5_fok : Order :=
  { o_base with uid := 10, sell_amount := 5, fee_amount := 2 }

/-- A previous cache cell observed at block 7 that already resolved `q0`. -/
def c4_prev : Inner :=
  { orders := { orders := [], latest_settlement_block := 0, block := 7 },
    balances := insert_balance empty_balances q0 4,
    auction :=
      { block := 0, latest_settlement_block := 0, orders := [], prices := empty_prices } }

/-- An order whose query `q0` was resolved in the previous cycle. -/
def c4_order : Order := { o_base with uid := 11, sell_amount := 1 }

/-- An order for sell token 1, whose query `q1` is new this cycle. -/
def c4_order2 : Order :=
  { o_base with uid := 12, sell_amount := 1, sell_token := 1 }

/-- An environment whose order store fails. -/
def fail_env : UpdateEnv :=
  { db := Except.error "boom",
    filter_unsupported_tokens := fun l => Except.ok l,
    get_balances := fun qs => qs.map (fun _ => Except.ok 0),
    collected_prices := fun _ => none }

/-- Prices for tokens 1 and 3 only (scenario S4 shape). -/
def c8_prices : Prices :=
  fun t => if t = 1 then some 2 else if t = 3 then some 25 else none

/-- An order trading token 1 against token 3 (both priced). -/
def c8_order : Order := { o_base with uid := 13, sell_token := 1, buy_token := 3 }

/-- An order trading token 1 against the unpriced token 2. -/
def c8_order2 : Order := { o_base with uid := 14, sell_token := 1, buy_token := 2 }

/-- An environment whose balance oracle fails on every query. -/
def c9_env : UpdateEnv :=
  { db := Except.ok { orders := [c4_order], latest_settlement_block := 0 },
    filter_unsupported_tokens := fun l => Except.ok l,
    get_balances := fun qs => qs.map (fun _ => Except.error "failed to get balance"),
    collected_prices := fun _ => some 1 }

theorem allocate_sublist (b : Nat) (l : List Order) : (allocate b l).Sublist l := by
  induction l generalizing b with
  | nil => simp [allocate]
  | cons o rest ih =>
    unfold allocate
    cases hmt : max_transfer_out_amount o with
    | error e => exact (ih b).cons o
    | ok needed =>
      by_cases h0 : needed = 0
      · simp only [h0, if_pos rfl]
        exact (ih b).cons o
      · simp only [if_neg h0]
        cases hcs : checked_sub b needed with
        | none => exact (ih b).cons o
        | some r2 => exact (ih r2).cons₂ o

theorem mem_allocate {b : Nat} {l : List Order} {o : Order}
    (h : o ∈ allocate b l) : o ∈ l :=
  (allocate_sublist b l).mem h

theorem allocate_needed_sum (b : Nat) (l : List Order) :
    needed_sum (allocate b l) ≤ b := by
  induction l generalizing b with
  | nil => simp [allocate, needed_sum]
  | cons o rest ih =>
    unfold allocate
    cases hmt : max_transfer_out_amount o with
    | error e => exact ih b
    | ok needed =>
      by_cases h0 : needed = 0
      · simp only [h0, if_pos rfl]
        exact ih b
      · simp only [if_neg h0]
        cases hcs : checked_sub b needed with
        | none => exact ih b
        | some r2 =>
          have hle : needed ≤ b := by
            by_contra hgt
            simp [checked_sub, hgt] at hcs
          have hr2 : r2 = b - needed := by
            simp [checked_sub, hle] at hcs
            omega
          have : needed_sum (o :: allocate r2 rest) =
              needed_or_zero o + needed_sum (allocate r2 rest) := by
            simp [needed_sum]
          rw [this]
          have hn : needed_or_zero o = needed := by simp [needed_or_zero, hmt]
          have := ih r2
          omega

theorem mem_group_alloc_key {balances : Balances} {sorted : List Order} {q : Query}
    {o : Order} (h : o ∈ group_alloc balances sorted q) : Query.from_order o = q := by
  unfold group_alloc at h
  cases hb : balances q with
  | none => simp [hb] at h
  | some b =>
    rw [hb] at h
    have := List.mem_filter.mp (mem_allocate h)
    simpa [has_key] using this.2

theorem filter_group_alloc_self (balances : Balances) (sorted : List Order) (q : Query) :
    (group_alloc balances sorted q).filter (has_key q) = group_alloc balances sorted q := by
  apply List.filter_eq_self.mpr
  intro o ho
  simpa [has_key] using mem_group_alloc_key ho

theorem filter_group_alloc_ne (balances : Balances) (sorted : List Order) {k q : Query}
    (h : k ≠ q) : (group_alloc balances sorted k).filter (has_key q) = [] := by
  apply List.filter_eq_nil_iff.mpr
  intro o ho
  have := mem_group_alloc_key ho
  simp [has_key, this, h]

theorem not_mem_flatMap_of_key {balances : Balances} {sorted : List Order}
    {keys : List Query} {o : Order} (h : Query.from_order o ∉ keys) :
    o ∉ keys.flatMap (group_alloc balances sorted) := by
  intro hmem
  rcases List.mem_flatMap.mp hmem with ⟨k, hk, ho⟩
  exact h (mem_group_alloc_key ho ▸ hk)

theorem filter_key_flatMap (balances : Balances) (sorted : List Order) (q : Query)
    (keys : List Query) (hnd : keys.Nodup) :
    (keys.flatMap (group_alloc balances sorted)).filter (has_key q) =
      if q ∈ keys then group_alloc balances sorted q else [] := by
  induction keys with
  | nil => simp
  | cons k ks ih =>
    have hnd2 := List.nodup_cons.mp hnd
    rw [List.flatMap_cons, List.filter_append, ih hnd2.2]
    by_cases hkq : k = q
    · subst hkq
      rw [filter_group_alloc_self]
      simp [hnd2.1]
    · rw [filter_group_alloc_ne balances sorted hkq]
      rw [List.nil_append]
      have hne : q ≠ k := fun h => hkq h.symm
      by_cases hq : q ∈ ks
      · simp [hq, List.mem_cons, hne]
      · simp [hq, List.mem_cons, hne]

theorem solvable_orders_filter_key (orders : List Order) (balances : Balances) (q : Query) :
    (solvable_orders orders balances).filter (has_key q) =
      if q ∈ group_keys (sort_by_date_desc orders) then
        group_alloc balances (sort_by_date_desc orders) q
      else [] := by
  unfold solvable_orders
  exact filter_key_flatMap balances (sort_by_date_desc orders) q _
    (List.nodup_dedup _)

theorem insert_by_date_perm (x : Order) (l : List Order) :
    (insert_by_date x l).Perm (x :: l) := by
  induction l with
  | nil => simp [insert_by_date]
  | cons y l ih =>
    unfold insert_by_date
    by_cases h : y.creation_date < x.creation_date
    · simp [h]
    · simp only [if_neg h]
      exact (ih.cons y).trans (List.Perm.swap x y l)

theorem insert_by_date_sorted (x : Order) {l : List Order}
    (hs : l.Pairwise (fun a b => b.creation_date ≤ a.creation_date)) :
    (insert_by_date x l).Pairwise (fun a b => b.creation_date ≤ a.creation_date) := by
  induction l with
  | nil => simp [insert_by_date]
  | cons y l ih =>
    rw [List.pairwise_cons] at hs
    unfold insert_by_date
    by_cases h : y.creation_date < x.creation_date
    · rw [if_pos h, List.pairwise_cons]
      refine ⟨?_, List.pairwise_cons.mpr hs⟩
      intro z hz
      rcases List.mem_cons.mp hz with rfl | hz
      · omega
      · have := hs.1 z hz
        omega
    · rw [if_neg h, List.pairwise_cons]
      refine ⟨?_, ih hs.2⟩
      intro z hz
      rcases List.mem_cons.mp ((insert_by_date_perm x l).mem_iff.mp hz) with rfl | hz2
      · omega
      · exact hs.1 z hz2

theorem insert_by_date_split (x : Order) (l : List Order)
    (hs : l.Pairwise (fun a b => b.creation_date ≤ a.creation_date)) :
    ∃ l₁ l₂, l = l₁ ++ l₂ ∧ insert_by_date x l = l₁ ++ x :: l₂ ∧
      ∀ z ∈ l₂, z.creation_date < x.creation_date := by
  induction l with
  | nil => exact ⟨[], [], rfl, rfl, by simp⟩
  | cons y l ih =>
    rw [List.pairwise_cons] at hs
    by_cases h : y.creation_date < x.creation_date
    · refine ⟨[], y :: l, rfl, by simp [insert_by_date, h], ?_⟩
      intro z hz
      rcases List.mem_cons.mp hz with rfl | hz
      · exact h
      · have := hs.1 z hz
        omega
    · rcases ih hs.2 with ⟨l₁, l₂, he, hi, hlt⟩
      exact ⟨y :: l₁, l₂, by simp [he], by simp [insert_by_date, h, hi], hlt⟩

theorem filter_date_insert_by_date (x : Order) (l : List Order) (d : Nat)
    (hs : l.Pairwise (fun a b => b.creation_date ≤ a.creation_date)) :
    (insert_by_date x l).filter (date_is d) =
      if x.creation_date = d then l.filter (date_is d) ++ [x]
      else l.filter (date_is d) := by
  rcases insert_by_date_split x l hs with ⟨l₁, l₂, he, hi, hlt⟩
  subst he
  rw [hi, List.filter_append, List.filter_append, List.filter_cons]
  by_cases hd : x.creation_date = d
  · have h2 : l₂.filter (date_is d) = [] := by
      apply List.filter_eq_nil_iff.mpr
      intro z hz
      have := hlt z hz
      simp only [date_is, decide_eq_true_eq]
      omega
    simp [date_is, hd, h2]
  · simp [date_is, hd]

theorem sort_by_date_desc_sorted (orders : List Order) :
    (sort_by_date_desc orders).Pairwise
      (fun a b => b.creation_date ≤ a.creation_date) := by
  suffices h : ∀ (os acc : List Order),
      acc.Pairwise (fun a b => b.creation_date ≤ a.creation_date) →
      (os.foldl (fun acc o => insert_by_date o acc) acc).Pairwise
        (fun a b => b.creation_date ≤ a.creation_date) by
    exact h orders [] (by simp)
  intro os
  induction os with
  | nil => intro acc h; simpa using h
  | cons o os ih =>
    intro acc h
    exact ih _ (insert_by_date_sorted o h)

theorem sort_by_date_desc_perm (orders : List Order) :
    (sort_by_date_desc orders).Perm orders := by
  suffices h : ∀ (os acc : List Order),
      (os.foldl (fun acc o => insert_by_date o acc) acc).Perm (acc ++ os) by
    simpa using h orders []
  intro os
  induction os with
  | nil => intro acc; simp
  | cons o os ih =>
    intro acc
    refine (ih (insert_by_date o acc)).trans ?_
    refine (List.Perm.append_right os (insert_by_date_perm o acc)).trans ?_
    exact List.perm_middle.symm

theorem sort_by_date_desc_filter_date (orders : List Order) (d : Nat) :
    (sort_by_date_desc orders).filter (date_is d) = orders.filter (date_is d) := by
  suffices h : ∀ (os acc : List Order),
      acc.Pairwise (fun a b => b.creation_date ≤ a.creation_date) →
      (os.foldl (fun acc o => insert_by_date o acc) acc).filter (date_is d) =
        acc.filter (date_is d) ++ os.filter (date_is d) by
    simpa using h orders [] (by simp)
  intro os
  induction os with
  | nil => intro acc _; simp
  | cons o os ih =>
    intro acc hs
    rw [List.foldl_cons, ih _ (insert_by_date_sorted o hs),
        filter_date_insert_by_date o acc d hs, List.filter_cons]
    by_cases hd : o.creation_date = d
    · simp [date_is, hd]
    · simp [date_is, hd]

theorem mem_group_keys {orders : List Order} {q : Query} :
    q ∈ group_keys (sort_by_date_desc orders) ↔
      ∃ o ∈ orders, Query.from_order o = q := by
  unfold group_keys
  rw [List.mem_dedup, List.mem_map]
  constructor
  · rintro ⟨o, ho, rfl⟩
    exact ⟨o, (sort_by_date_desc_perm orders).mem_iff.mp ho, rfl⟩
  · rintro ⟨o, ho, rfl⟩
    exact ⟨o, (sort_by_date_desc_perm orders).mem_iff.mpr ho, rfl⟩

theorem count_flatMap_group_le (balances : Balances) (sorted : List Order) (o : Order)
    (keys : List Query) (hnd : keys.Nodup) :
    (keys.flatMap (group_alloc balances sorted)).count o ≤ sorted.count o := by
  induction keys with
  | nil => simp
  | cons k ks ih =>
    have hnd2 := List.nodup_cons.mp hnd
    rw [List.flatMap_cons, List.count_append]
    by_cases hk : Query.from_order o = k
    · have h1 : (group_alloc balances sorted k).count o ≤ sorted.count o := by
        unfold group_alloc
        cases hb : balances k with
        | none => simp
        | some b =>
          calc (allocate b (sorted.filter (has_key k))).count o
              ≤ (sorted.filter (has_key k)).count o := (allocate_sublist _ _).count_le o
            _ ≤ sorted.count o := (List.filter_sublist _).count_le o
      have h2 : (ks.flatMap (group_alloc balances sorted)).count o = 0 := by
        apply List.count_eq_zero.mpr
        exact not_mem_flatMap_of_key (by rw [hk]; exact hnd2.1)
      omega
    · have h1 : (group_alloc balances sorted k).count o = 0 := by
        apply List.count_eq_zero.mpr
        intro hm
        exact hk (mem_group_alloc_key hm)
      have h2 := ih hnd2.2
      omega

theorem perm_pair_cases {x y : Order} {l : List Order} (h : l.Perm [x, y]) :
    l = [x, y] ∨ l = [y, x] := by
  have hlen : l.length = 2 := by simpa using h.length_eq
  match l, hlen with
  | [u, v], _ =>
    have hu : u ∈ [x, y] := h.mem_iff.mp (by simp)
    rcases List.mem_cons.mp hu with rfl | hu2
    · left
      have hv : [v].Perm [y] := (List.perm_cons u).mp h
      have := List.perm_singleton.mp hv
      simp_all
    · have hu3 : u = y := by simpa using hu2
      subst hu3
      right
      have hv : [v].Perm [x] := (List.perm_cons u).mp (h.trans (List.Perm.swap x u []).symm)
      have := List.perm_singleton.mp hv
      simp_all

/-- C1: Balance conservation.  For every balance query `q` appearing among the
orders admitted by `solvable_orders`, the total `max_transfer_out_amount` of
the admitted orders of `q` never exceeds the balance recorded for `q`. -/
theorem balance_conservation (orders : List Order) (balances : Balances)
    (q : Query) (B : Nat) (hB : balances q = some B)
    (hq : q ∈ (solvable_orders orders balances).map Query.from_order) :
    needed_sum ((solvable_orders orders balances).filter (has_key q)) ≤ B := by
  rw [solvable_orders_filter_key]
  by_cases hk : q ∈ group_keys (sort_by_date_desc orders)
  · rw [if_pos hk]
    unfold group_alloc
    rw [hB]
    exact allocate_needed_sum B _
  · rw [if_neg hk]
    simp [needed_sum]

/-- C1 witness: scenario S1 (orders needing 6 and 4 against a balance of 9)
consumes at most the 9 available units. -/
theorem balance_conservation_witness :
    needed_sum ((solvable_orders [c1_order_new, c1_order_old] c1_balances).filter
      (has_key q0)) ≤ 9 :=
  balance_conservation [c1_order_new, c1_order_old] c1_balances q0 9
    (by decide) (by decide)

/-- C10: the allocator never invents, duplicates, or modifies orders: every
order occurs in the output of `solvable_orders` at most as often as in the
input. -/
theorem solvable_orders_submultiset (orders : List Order) (balances : Balances)
    (o : Order) :
    (solvable_orders orders balances).count o ≤ orders.count o := by
  unfold solvable_orders
  calc ((group_keys (sort_by_date_desc orders)).flatMap
        (group_alloc balances (sort_by_date_desc orders))).count o
      ≤ (sort_by_date_desc orders).count o :=
        count_flatMap_group_le _ _ o _ (List.nodup_dedup _)
    _ = orders.count o := (sort_by_date_desc_perm orders).count_eq o

/-- C2 counterexample: with two orders of the same balance query, equal
`creation_date` and distinct uids, and balance for exactly one of them, the
allocator admits whichever order comes first in the input: its output is not a
function of the input multiset, and no `uid`-ascending tie-break is applied
(the admitted order of the first run has the larger uid). -/
theorem allocator_order_dependent_counterexample :
    c2_first.creation_date = c2_second.creation_date ∧
    c2_second.uid < c2_first.uid ∧
    Query.from_order c2_first = Query.from_order c2_second ∧
    solvable_orders [c2_first, c2_second] c2_balances = [c2_first] ∧
    solvable_orders [c2_second, c2_first] c2_balances = [c2_second] ∧
    solvable_orders [c2_first, c2_second] c2_balances ≠
      solvable_orders [c2_second, c2_first] c2_balances := by
  decide

/-- C2 amended: the allocator considers the orders of each group sorted by
`creation_date` descending, with equal timestamps kept in input order (the
sort is stable); the output is a deterministic function of the input sequence
and the balance map, but not of their multiset when timestamps collide, and no
secondary `uid` tie-break exists. -/
theorem allocator_considers_stable_descending_order (orders : List Order) :
    (sort_by_date_desc orders).Pairwise
      (fun a b => b.creation_date ≤ a.creation_date) ∧
    (sort_by_date_desc orders).Perm orders ∧
    (∀ d, (sort_by_date_desc orders).filter (date_is d) = orders.filter (date_is d)) :=
  ⟨sort_by_date_desc_sorted orders, sort_by_date_desc_perm orders,
    fun d => sort_by_date_desc_filter_date orders d⟩

/-- C3 counterexample: three orders of one group with balance 10; the newest
(needing 5) is admitted first, leaving 5, so the middle order (needing 6,
individually satisfiable) is skipped while the oldest (needing 3) is admitted.
Of the pair (middle, oldest), exactly one is admitted, and it is not the more
recent one. -/
theorem recency_preference_counterexample :
    Query.from_order c3_mid = Query.from_order c3_oldest ∧
    c3_oldest.creation_date < c3_mid.creation_date ∧
    max_transfer_out_amount c3_mid = Except.ok 6 ∧
    max_transfer_out_amount c3_oldest = Except.ok 3 ∧
    c3_balances (Query.from_order c3_mid) = some 10 ∧
    c3_mid ∉ solvable_orders [c3_newest, c3_mid, c3_oldest] c3_balances ∧
    c3_oldest ∈ solvable_orders [c3_newest, c3_mid, c3_oldest] c3_balances := by
  decide

/-- C3 amended: recency preference holds when `a` and `b` are the only orders
of their balance query in the input: if `a` is strictly newer and individually
satisfiable then the allocator always admits `a`; in particular if exactly one
of the two is admitted it is `a`. -/
theorem recency_preference (orders : List Order) (balances : Balances)
    (a b : Order) (q : Query) (B na : Nat)
    (hqa : Query.from_order a = q)
    (hdate : b.creation_date < a.creation_date)
    (hB : balances q = some B)
    (hna : max_transfer_out_amount a = Except.ok na)
    (hna0 : 0 < na) (hnaB : na ≤ B)
    (hgroup : orders.filter (has_key q) = [a, b] ∨
      orders.filter (has_key q) = [b, a]) :
    a ∈ solvable_orders orders balances := by
  have hsorted := sort_by_date_desc_sorted orders
  have hpf : ((sort_by_date_desc orders).filter (has_key q)).Perm
      (orders.filter (has_key q)) :=
    (sort_by_date_desc_perm orders).filter _
  have hpair : ((sort_by_date_desc orders).filter (has_key q)).Perm [a, b] := by
    rcases hgroup with hg | hg
    · rw [hg] at hpf
      exact hpf
    · rw [hg] at hpf
      exact hpf.trans (List.Perm.swap a b [])
  have hfil : (sort_by_date_desc orders).filter (has_key q) = [a, b] := by
    rcases perm_pair_cases hpair with h | h
    · exact h
    · exfalso
      have hp : ((sort_by_date_desc orders).filter (has_key q)).Pairwise
          (fun x y => y.creation_date ≤ x.creation_date) :=
        List.Pairwise.sublist (List.filter_sublist _) hsorted
      rw [h] at hp
      have := (List.pairwise_cons.mp hp).1 a (by simp)
      omega
  have hain : a ∈ orders.filter (has_key q) := by
    rcases hgroup with hg | hg <;> simp [hg]
  have hkey : q ∈ group_keys (sort_by_date_desc orders) :=
    mem_group_keys.mpr ⟨a, List.mem_of_mem_filter hain, hqa⟩
  have hne : na ≠ 0 := Nat.pos_iff_ne_zero.mp hna0
  have hcs : checked_sub B na = some (B - na) := by simp [checked_sub, hnaB]
  have hmem : a ∈ (solvable_orders orders balances).filter (has_key q) := by
    rw [solvable_orders_filter_key, if_pos hkey]
    unfold group_alloc
    rw [hB, hfil]
    simp [allocate, hna, hne, hcs]
  exact List.mem_of_mem_filter hmem

/-- C3 witness: a two-order group with balance 5, both orders needing 4; the
newer order is admitted (and is the only one). -/
theorem recency_preference_witness :
    c3w_a ∈ solvable_orders [c3w_b, c3w_a] c3w_balances :=
  recency_preference [c3w_b, c3w_a] c3w_balances c3w_a c3w_b q0 5 4
    (by decide) (by decide) (by decide) (by decide) (by decide) (by decide)
    (Or.inr (by decide))

theorem new_balances_missing_mem (old : Balances) (orders : List Order)
    (acc : Balances × List Query) (q : Query) :
    q ∈ (orders.foldl (nb_step old) acc).2 ↔
      q ∈ acc.2 ∨ (old q = none ∧ ∃ o ∈ orders, Query.from_order o = q) := by
  induction orders generalizing acc with
  | nil => simp
  | cons o os ih =>
    rw [List.foldl_cons, ih]
    by_cases hk : Query.from_order o = q
    · subst hk
      cases ho : old (Query.from_order o) with
      | some b => simp [nb_step, ho]
      | none =>
        by_cases hacc : Query.from_order o ∈ acc.2
        · simp [nb_step, ho, hacc]
        · simp [nb_step, ho, hacc, List.concat_eq_append]
    · have hk2 : q ≠ Query.from_order o := fun h => hk h.symm
      cases ho : old (Query.from_order o) with
      | some b => simp [nb_step, ho, hk, hk2]
      | none =>
        by_cases hacc : Query.from_order o ∈ acc.2
        · simp [nb_step, ho, hacc, hk, hk2]
        · simp [nb_step, ho, hacc, List.concat_eq_append, hk, hk2]

theorem new_balances_map_eq (old : Balances) (orders : List Order)
    (acc : Balances × List Query) (q : Query) :
    (orders.foldl (nb_step old) acc).1 q =
      if (∃ o ∈ orders, Query.from_order o = q) ∧ (old q).isSome then old q
      else acc.1 q := by
  induction orders generalizing acc with
  | nil => simp
  | cons o os ih =>
    rw [List.foldl_cons, ih]
    by_cases hk : Query.from_order o = q
    · subst hk
      cases ho : old (Query.from_order o) with
      | some b => simp [nb_step, ho, insert_balance]
      | none => simp [nb_step, ho]
    · have hk2 : q ≠ Query.from_order o := fun h => hk h.symm
      cases ho : old (Query.from_order o) with
      | some b => simp [nb_step, ho, insert_balance, hk, hk2]
      | none => simp [nb_step, ho, hk, hk2]

theorem new_balances_missing_nodup (old : Balances) (orders : List Order)
    (acc : Balances × List Query) (h : acc.2.Nodup) :
    (orders.foldl (nb_step old) acc).2.Nodup := by
  induction orders generalizing acc with
  | nil => simpa
  | cons o os ih =>
    rw [List.foldl_cons]
    apply ih
    cases ho : old (Query.from_order o) with
    | some b => simpa [nb_step, ho]
    | none =>
      by_cases hacc : Query.from_order o ∈ acc.2
      · simpa [nb_step, ho, hacc]
      · simp [nb_step, ho, hacc, List.concat_eq_append, List.nodup_append, h]

/-- C4: balance reuse is gated on block equality: the previous balances are
reused verbatim exactly when the cached snapshot's block equals the cycle's
block (and discarded otherwise); a query is passed to the balance oracle
exactly when it belongs to a current order and is not already resolved in the
reused map (so every previously resolved query is not re-queried, and on a
block change every distinct query of the current orders is fetched, each
once). -/
theorem balance_reuse_block_gated (prev : Inner) (block : Nat) (orders : List Order) :
    (prev.orders.block = block → old_balances_for prev block = prev.balances) ∧
    (prev.orders.block ≠ block → old_balances_for prev block = empty_balances) ∧
    (new_balances (old_balances_for prev block) orders).2.Nodup ∧
    (∀ q,
      (q ∈ (new_balances (old_balances_for prev block) orders).2 ↔
        old_balances_for prev block q = none ∧ ∃ o ∈ orders, Query.from_order o = q) ∧
      ((new_balances (old_balances_for prev block) orders).1 q =
        if (∃ o ∈ orders, Query.from_order o = q) ∧
            (old_balances_for prev block q).isSome
        then old_balances_for prev block q else none)) := by
  refine ⟨fun h => by simp [old_balances_for, h],
    fun h => by simp [old_balances_for, h],
    new_balances_missing_nodup _ orders (empty_balances, []) (by simp), ?_⟩
  intro q
  constructor
  · simpa using new_balances_missing_mem (old_balances_for prev block) orders
      (empty_balances, []) q
  · simpa [empty_balances] using new_balances_map_eq (old_balances_for prev block)
      orders (empty_balances, []) q

/-- C4 witness: at an equal block the previous map is reused, the resolved
query `q0` is reused rather than re-queried, and the new query `q1` is
fetched. -/
theorem balance_reuse_block_gated_witness :
    old_balances_for c4_prev 7 = c4_prev.balances ∧
    (q0 ∈ (new_balances (old_balances_for c4_prev 7) [c4_order, c4_order2]).2 ↔
      old_balances_for c4_prev 7 q0 = none ∧
        ∃ o ∈ [c4_order, c4_order2], Query.from_order o = q0) ∧
    ((new_balances (old_balances_for c4_prev 7) [c4_order, c4_order2]).1 q1 =
      if (∃ o ∈ [c4_order, c4_order2], Query.from_order o = q1) ∧
          (old_balances_for c4_prev 7 q1).isSome
      then old_balances_for c4_prev 7 q1 else none) :=
  have h := balance_reuse_block_gated c4_prev 7 [c4_order, c4_order2]
  ⟨h.1 (by decide), (h.2.2.2 q0).1, (h.2.2.2 q1).2⟩

/-- C7: failure atomicity of a refresh cycle: `update` errors exactly when the
order-store load or the bad-token filtering fails, and on an error the
published cache cell is exactly what it was before the call; the cell is
replaced only by a fully successful cycle. -/
theorem update_failure_atomic (env : UpdateEnv) (banned_users : List Nat)
    (prev : Inner) (block : Nat) :
    ((∃ e, update env banned_users prev block = Except.error e) ↔
      (∃ e, env.db = Except.error e) ∨
      (∃ dbo, env.db = Except.ok dbo ∧
        ∃ e, env.filter_unsupported_tokens
          (filter_banned_user_orders dbo.orders banned_users) = Except.error e)) ∧
    (∀ e, update env banned_users prev block = Except.error e →
      update_step env banned_users prev block = prev) := by
  constructor
  · cases hdb : env.db with
    | error e => simp [update, hdb]
    | ok dbo =>
      cases hft : env.filter_unsupported_tokens
          (filter_banned_user_orders dbo.orders banned_users) with
      | error e => simp [update, hdb, hft]
      | ok os => simp [update, hdb, hft]
  · intro e he
    unfold update_step
    rw [he]

/-- C7 witness: a cycle whose order store fails leaves the initial cache cell
unchanged. -/
theorem update_failure_atomic_witness :
    update_step fail_env [] init_inner 5 = init_inner :=
  (update_failure_atomic fail_env [] init_inner 5).2 "boom" rfl

theorem apply_fetched_error_unchanged (m : Balances) (missing : List Query)
    (fetched : List (Except String Nat)) (q : Query)
    (h : ∀ p ∈ missing.zip fetched, p.1 = q → is_ok p.2 = false) :
    apply_fetched m missing fetched q = m q := by
  unfold apply_fetched
  generalize missing.zip fetched = l at h
  induction l generalizing m with
  | nil => rfl
  | cons p t ih =>
    rw [List.foldl_cons]
    cases hr : p.2 with
    | error e =>
      simp only [hr]
      exact ih m fun p2 hp2 hq2 => h p2 (List.mem_cons_of_mem p hp2) hq2
    | ok b =>
      have hne : p.1 ≠ q := by
        intro hc
        have := h p (List.mem_cons_self p t) hc
        rw [hr] at this
        simp [is_ok] at this
      simp only [hr]
      rw [ih (insert_balance m p.1 b)
        fun p2 hp2 hq2 => h p2 (List.mem_cons_of_mem p hp2) hq2]
      have hne2 : q ≠ p.1 := fun hc => hne hc.symm
      simp [insert_balance, hne2]

theorem update_ok_balances (env : UpdateEnv) (banned_users : List Nat)
    (prev : Inner) (block : Nat) (dbo : DbOrders) (os : List Order)
    (hdb : env.db = Except.ok dbo)
    (hft : env.filter_unsupported_tokens
      (filter_banned_user_orders dbo.orders banned_users) = Except.ok os)
    (next : Inner)
    (hnext : update env banned_users prev block = Except.ok next) :
    next.balances = apply_fetched
      (new_balances (old_balances_for prev block) os).1
      (new_balances (old_balances_for prev block) os).2
      (env.get_balances (new_balances (old_balances_for prev block) os).2) := by
  simp only [update, hdb, hft, Except.ok.injEq] at hnext
  rw [hnext.symm]

/-- C9: per-query balance failures are non-fatal and localized: with the order
store and the bad-token oracle succeeding, the cycle succeeds whatever the
balance oracle returns for individual queries; a group whose query is absent
from the balance map contributes no orders; the admitted orders of a group
depend only on that group's own balance entry, so all other groups are
processed as usual; and a freshly needed query whose oracle results all error
is absent from the balance map published by the successful cycle. -/
theorem per_query_failures_localized (env : UpdateEnv) (banned_users : List Nat)
    (prev : Inner) (block : Nat) (dbo : DbOrders) (os : List Order)
    (hdb : env.db = Except.ok dbo)
    (hft : env.filter_unsupported_tokens
      (filter_banned_user_orders dbo.orders banned_users) = Except.ok os) :
    (∃ next, update env banned_users prev block = Except.ok next) ∧
    (∀ (orders : List Order) (balances : Balances) (q : Query),
      balances q = none →
      (solvable_orders orders balances).filter (has_key q) = []) ∧
    (∀ (orders : List Order) (bal1 bal2 : Balances) (k : Query),
      bal1 k = bal2 k →
      (solvable_orders orders bal1).filter (has_key k) =
        (solvable_orders orders bal2).filter (has_key k)) ∧
    (∀ q, q ∈ (new_balances (old_balances_for prev block) os).2 →
      (∀ p ∈ (new_balances (old_balances_for prev block) os).2.zip
          (env.get_balances (new_balances (old_balances_for prev block) os).2),
        p.1 = q → is_ok p.2 = false) →
      ∀ next, update env banned_users prev block = Except.ok next →
        next.balances q = none) := by
  refine ⟨?_, ?_, ?_, ?_⟩
  · simp [update, hdb, hft]
  · intro orders balances q hq
    rw [solvable_orders_filter_key]
    unfold group_alloc
    rw [hq]
    simp
  · intro orders bal1 bal2 k hk
    rw [solvable_orders_filter_key, solvable_orders_filter_key]
    unfold group_alloc
    rw [hk]
  · intro q hqmem herr next hnext
    rw [update_ok_balances env banned_users prev block dbo os hdb hft next hnext]
    rw [apply_fetched_error_unchanged _ _ _ q herr]
    have hold : old_balances_for prev block q = none := by
      have hm := (new_balances_missing_mem (old_balances_for prev block) os
        (empty_balances, []) q).mp hqmem
      rcases hm with hm | hm
      · simp at hm
      · exact hm.1
    have hmap := new_balances_map_eq (old_balances_for prev block) os
      (empty_balances, []) q
    rw [show (new_balances (old_balances_for prev block) os).1 q =
        (os.foldl (nb_step (old_balances_for prev block)) (empty_balances, [])).1 q
      from rfl, hmap]
    simp [hold, empty_balances]

/-- C9 witness: a cycle whose balance oracle fails on its only query still
succeeds; the empty balance map admits no orders for `q0`; group outputs agree
when the balance entries agree; and the erroring query `q0` is absent from the
balance map the successful cycle publishes. -/
theorem per_query_failures_localized_witness :
    (∃ next, update c9_env [] init_inner 0 = Except.ok next) ∧
    (solvable_orders [c1_order_new] empty_balances).filter (has_key q0) = [] ∧
    ((solvable_orders [c1_order_new] c1_balances).filter (has_key q0) =
      (solvable_orders [c1_order_new] c1_balances).filter (has_key q0)) ∧
    (update_step c9_env [] init_inner 0).balances q0 = none :=
  have h := per_query_failures_localized c9_env [] init_inner 0
    { orders := [c4_order], latest_settlement_block := 0 } [c4_order] rfl rfl
  ⟨h.1, h.2.1 [c1_order_new] empty_balances q0 rfl,
    h.2.2.1 [c1_order_new] c1_balances c1_balances q0 rfl,
    h.2.2.2 q0 (by decide) (by decide) (update_step c9_env [] init_inner 0) rfl⟩

theorem used_prices_spec (prices : Prices) (orders : List Order) (acc : Prices) (t : Nat) :
    (orders.foldl
      (fun acc o =>
        match prices o.sell_token, prices o.buy_token with
        | some p0, some p1 =>
          insert_price (insert_price acc o.sell_token p0) o.buy_token p1
        | _, _ => acc)
      acc) t =
      if ∃ o ∈ orders, both_priced prices o = true ∧ (t = o.sell_token ∨ t = o.buy_token)
      then prices t else acc t := by
  induction orders generalizing acc with
  | nil => simp
  | cons o os ih =>
    rw [List.foldl_cons, ih]
    cases hs : prices o.sell_token with
    | none =>
      have hbp : both_priced prices o = false := by simp [both_priced, hs]
      simp [hs, hbp]
    | some p0 =>
      cases hb : prices o.buy_token with
      | none =>
        have hbp : both_priced prices o = false := by simp [both_priced, hb]
        simp [hs, hb, hbp]
      | some p1 =>
        have hbp : both_priced prices o = true := by simp [both_priced, hs, hb]
        by_cases hex : ∃ o2 ∈ os,
            both_priced prices o2 = true ∧ (t = o2.sell_token ∨ t = o2.buy_token)
        · simp only [hs, hb, if_pos hex]
          rw [if_pos]
          exact hex.elim fun o2 h => ⟨o2, List.mem_cons_of_mem o h.1, h.2⟩
        · simp only [hs, hb, if_neg hex]
          by_cases ht1 : t = o.buy_token
          · rw [if_pos ⟨o, List.mem_cons_self o os, hbp, Or.inr ht1⟩]
            simp [insert_price, ht1, hb]
          · by_cases ht2 : t = o.sell_token
            · rw [if_pos ⟨o, List.mem_cons_self o os, hbp, Or.inl ht2⟩]
              simp only [insert_price, ht1, if_neg ht1, ht2, if_pos rfl, hs]
              simp
              intro h
              exact absurd (ht2.trans h) ht1
            · rw [if_neg]
              · simp [insert_price, ht1, ht2]
              · intro hc
                rcases hc with ⟨o2, hmem, hbp2, hto⟩
                rcases List.mem_cons.mp hmem with rfl | hmem2
                · rcases hto with h | h
                  · exact ht2 h
                  · exact ht1 h
                · exact hex ⟨o2, hmem2, hbp2, hto⟩

/-- C8: snapshot self-consistency: among the `(orders, prices)` pair produced
by the snapshot assembler, every retained order has both its tokens present in
the returned price map, every token of the returned price map belongs to some
retained order, and an input order is dropped only when one of its two prices
is missing. -/
theorem snapshot_self_consistent (orders : List Order) (prices : Prices) :
    (∀ o, o ∈ (get_orders_with_native_prices orders prices).1 →
      ((get_orders_with_native_prices orders prices).2 o.sell_token).isSome ∧
      ((get_orders_with_native_prices orders prices).2 o.buy_token).isSome) ∧
    (∀ t, ((get_orders_with_native_prices orders prices).2 t).isSome →
      ∃ o ∈ (get_orders_with_native_prices orders prices).1,
        t = o.sell_token ∨ t = o.buy_token) ∧
    (∀ o ∈ orders, o ∉ (get_orders_with_native_prices orders prices).1 →
      prices o.sell_token = none ∨ prices o.buy_token = none) := by
  have hused : ∀ t, (get_orders_with_native_prices orders prices).2 t =
      if ∃ o ∈ orders, both_priced prices o = true ∧ (t = o.sell_token ∨ t = o.buy_token)
      then prices t else none := by
    intro t
    simpa [empty_prices] using used_prices_spec prices orders empty_prices t
  refine ⟨?_, ?_, ?_⟩
  · intro o ho
    have hm := List.mem_filter.mp ho
    have hbp := hm.2
    have hpair := Bool.and_eq_true_iff.mp hbp
    constructor
    · rw [hused]
      rw [if_pos ⟨o, hm.1, hbp, Or.inl rfl⟩]
      exact hpair.1
    · rw [hused]
      rw [if_pos ⟨o, hm.1, hbp, Or.inr rfl⟩]
      exact hpair.2
  · intro t ht
    rw [hused] at ht
    by_cases hex : ∃ o ∈ orders,
        both_priced prices o = true ∧ (t = o.sell_token ∨ t = o.buy_token)
    · rcases hex with ⟨o, hmem, hbp, hto⟩
      exact ⟨o, List.mem_filter.mpr ⟨hmem, hbp⟩, hto⟩
    · rw [if_neg hex] at ht
      simp at ht
  · intro o hmem hnot
    have hbp : both_priced prices o = false := by
      cases hval : both_priced prices o with
      | false => rfl
      | true => exact absurd (List.mem_filter.mpr ⟨hmem, hval⟩) hnot
    cases hsell : prices o.sell_token with
    | none => exact Or.inl rfl
    | some p0 =>
      cases hbuy : prices o.buy_token with
      | none => exact Or.inr rfl
      | some p1 =>
        exfalso
        rw [both_priced, hsell, hbuy] at hbp
        simp at hbp

/-- C8 witness: with prices for tokens 1 and 3 only, the retained order
`1 → 3` has both its tokens priced, token 3 of the used-price map belongs to a
retained order, and the dropped order `1 → 2` is missing a price. -/
theorem snapshot_self_consistent_witness :
    (((get_orders_with_native_prices [c8_order, c8_order2] c8_prices).2
        c8_order.sell_token).isSome ∧
     ((get_orders_with_native_prices [c8_order, c8_order2] c8_prices).2
        c8_order.buy_token).isSome) ∧
    (∃ o ∈ (get_orders_with_native_prices [c8_order, c8_order2] c8_prices).1,
      (3 : Nat) = o.sell_token ∨ (3 : Nat) = o.buy_token) ∧
    (c8_prices c8_order2.sell_token = none ∨ c8_prices c8_order2.buy_token = none) :=
  have h := snapshot_self_consistent [c8_order, c8_order2] c8_prices
  ⟨h.1 c8_order (by decide), h.2.1 3 (by decide), h.2.2 c8_order2 (by decide) (by decide)⟩

/-- C5 counterexample: the order of the repository's own
`max_transfer_out_amount_overflow` test (partially fillable buy order,
`sell = 1000`, `fee = 337`, `buy = 2^256 - 1`, nothing executed): its exact
remaining transfer value `r * (sell + fee) = 1337` does not overflow 256 bits,
yet `max_transfer_out_amount` errors, because the 256-bit fill-ratio product
`sell_amount * (buy_amount - executed_buy_amount)` overflows.  So the function
does not error exactly when the exact value overflows. -/
theorem max_transfer_out_exact_value_counterexample :
    ((c5_cex.sell_amount + c5_cex.fee_amount) *
        (c5_cex.buy_amount - c5_cex.executed_buy_amount) / c5_cex.buy_amount
      < U256_LIMIT) ∧
    (∃ e, max_transfer_out_amount c5_cex = Except.error e) :=
  ⟨by decide, ⟨_, rfl⟩⟩

/-- C5 amended: for fill-or-kill orders `max_transfer_out_amount` errors
exactly when `sell_amount + fee_amount` reaches `2^256` and otherwise returns
that exact sum; for partially fillable orders it can also error when a 256-bit
intermediate of the fill-ratio computation overflows even though the exact
value fits.  The allocator skips an erroring order and continues: scenario S7
(`sell = 2^256 - 1`, `fee = 1`, fill-or-kill) errors, the order is excluded,
and the cycle succeeds. -/
theorem max_transfer_out_overflow_spec (o : Order) :
    (o.partially_fillable = false →
      (((∃ e, max_transfer_out_amount o = Except.error e) ↔
          U256_LIMIT ≤ o.sell_amount + o.fee_amount) ∧
        (o.sell_amount + o.fee_amount < U256_LIMIT →
          max_transfer_out_amount o = Except.ok (o.sell_amount + o.fee_amount)))) ∧
    ((∃ e, max_transfer_out_amount s7_order = Except.error e) ∧
      solvable_orders [s7_order, s7_ok_order] s7_balances = [s7_ok_order] ∧
      (∃ next, update s7_env [] init_inner 0 = Except.ok next)) := by
  constructor
  · intro hpf
    have hra : o.remaining_amounts = Except.ok ⟨o.sell_amount, o.fee_amount⟩ := by
      unfold Order.remaining_amounts
      rw [if_pos hpf]
    by_cases hlt : o.sell_amount + o.fee_amount < U256_LIMIT
    · constructor
      · rw [max_transfer_out_amount, hra]
        simp [checked_add, hlt]
      · intro _
        rw [max_transfer_out_amount, hra]
        simp [checked_add, hlt]
    · constructor
      · rw [max_transfer_out_amount, hra]
        simp [checked_add, hlt]
        omega
      · intro h
        exact absurd h hlt
  · exact ⟨⟨_, rfl⟩, by decide, ⟨_, rfl⟩⟩

/-- C5 witness: a fill-or-kill order with `sell = 5`, `fee = 2` does not error
and returns exactly 7. -/
theorem max_transfer_out_overflow_spec_witness :
    ((∃ e, max_transfer_out_amount c5_fok = Except.error e) ↔
      U256_LIMIT ≤ c5_fok.sell_amount + c5_fok.fee_amount) ∧
    max_transfer_out_amount c5_fok = Except.ok (c5_fok.sell_amount + c5_fok.fee_amount) :=
  have h := (max_transfer_out_overflow_spec c5_fok).1 (by decide)
  ⟨h.1, h.2 (by decide)⟩

end SolvableOrdersCache
